import Mathlib

/-!
Verification of the frame-pipeline scripts of this repository
(`frame_manager/frame_manager.py`, `gif_maker/gif_maker.py`,
`gif_maker/frame_manager.py`).

The Python code is shallowly embedded: loops become structural
recursions, the Python `ZeroDivisionError` and `raise Exception(...)`
paths become `Except` errors, frames are abstract values and the
on-disk frame cache is represented by the list of (index, frame)
pairs that the extraction loop persists.  Python integers are `Int`
(CLI arguments may be negative) and Python `%` is `Int.fmod`, whose
floor-convention matches Python exactly.
-/

namespace Utils

/-- Error outcomes of the scripts: `zeroDivision` models Python's
`ZeroDivisionError` from `i % skip` when `skip = 0`; `extractionError`
models `raise Exception("Extraction error.")` in `main`;
`noFilesFound` models `raise Exception('Not file found with pattern: ...')`. -/
inductive PyErr
  | zeroDivision
  | extractionError
  | noFilesFound
  deriving DecidableEq, Repr

/-- Loop of `extract_gif` (frame_manager/frame_manager.py:68-75) over the
remaining frame indices.  `if i < start_idx: continue`, `elif i > end_idx:
break`, then `if i % skip == 0: save frame_{i:08d}.png`.  The returned list
is the sequence of indices whose frame file is written, in loop order. -/
def gifLoop (skip s e : Int) : List Nat → Except PyErr (List Nat)
  | [] => .ok []
  | i :: rest =>
    if (i : Int) < s then gifLoop skip s e rest
    else if (i : Int) > e then .ok []
    else if skip = 0 then .error .zeroDivision
    else if Int.fmod (i : Int) skip = 0 then (gifLoop skip s e rest).map (i :: ·)
    else gifLoop skip s e rest

/-- `extract_gif` (frame_manager/frame_manager.py:55-76): iterates
`enumerate(range(gif_object.n_frames))` and finally returns
`gif_object.n_frames`.  Result: (persisted indices, return value). -/
def extract_gif (nFrames : Nat) (skip s e : Int) : Except PyErr (List Nat × Nat) :=
  (gifLoop skip s e (List.range nFrames)).map (fun l => (l, nFrames))

/-- Indices whose frame file `extract_gif` persists to the temp cache. -/
def gifPersisted (nFrames : Nat) (skip s e : Int) : List Nat :=
  match extract_gif nFrames skip s e with
  | .ok p => p.1
  | .error _ => []

/-- Body of the `while success:` loop of `extract_video`
(frame_manager/frame_manager.py:96-106), entered with the current frame
`img` in hand, the not-yet-read frames `rest`, and the loop index `i`
already advanced past the `if i < start_idx: continue` phase (that phase
increments `i` without calling `read()`, so it never consumes a frame).
Checks `i > end_idx: break` first, then `i % skip == 0` persists the
currently held image, then reads the next frame.  Returns the persisted
(index, frame) pairs together with the final value of `i`. -/
def videoProcess {α : Type} (skip e : Int) : List α → Nat → α → Except PyErr (List (Nat × α) × Int)
  | [], i, img =>
    if (i : Int) > e then .ok ([], (i : Int))
    else if skip = 0 then .error .zeroDivision
    else .ok (if Int.fmod (i : Int) skip = 0 then [(i, img)] else [], (i : Int))
  | r :: rs, i, img =>
    if (i : Int) > e then .ok ([], (i : Int))
    else if skip = 0 then .error .zeroDivision
    else
      (videoProcess skip e rs (i + 1) r).map
        (fun p => ((if Int.fmod (i : Int) skip = 0 then [(i, img)] else []) ++ p.1, p.2))

/-- `extract_video` (frame_manager/frame_manager.py:79-107).  `i` starts at
`-1`; the first `read()` provides frame 0.  If the video yields no frame the
loop never runs and `i = -1` is returned.  Otherwise the `continue` branch
advances `i` to `max start_idx 0 = start_idx.toNat` while still holding the
FIRST decoded frame, and processing starts there. -/
def extract_video {α : Type} (skip s e : Int) (frames : List α) :
    Except PyErr (List (Nat × α) × Int) :=
  match frames with
  | [] => .ok ([], -1)
  | f :: rest => videoProcess skip e rest s.toNat f

/-- The (index, frame) pairs persisted by `extract_video`. -/
def videoWrites {α : Type} (skip s e : Int) (frames : List α) : List (Nat × α) :=
  match extract_video skip s e frames with
  | .ok p => p.1
  | .error _ => []

/-- The value returned by `extract_video` (the final loop index `i`). -/
def videoRet {α : Type} (skip s e : Int) (frames : List α) : Int :=
  match extract_video skip s e frames with
  | .ok p => p.2
  | .error _ => 0

/-- Totalized persisted-pairs of `videoProcess`, used to state its
behaviour once `skip ≠ 0` rules the error branch out (proved equal to
`videoProcess` in `videoProcess_eq_aux`). -/
def videoWritesAux {α : Type} (skip e : Int) : List α → Nat → α → List (Nat × α)
  | [], i, img =>
    if (i : Int) > e then []
    else if Int.fmod (i : Int) skip = 0 then [(i, img)] else []
  | r :: rs, i, img =>
    if (i : Int) > e then []
    else
      (if Int.fmod (i : Int) skip = 0 then [(i, img)] else []) ++
        videoWritesAux skip e rs (i + 1) r

/-- Totalized return value of `videoProcess` (the final loop index). -/
def videoRetAux {α : Type} (e : Int) : List α → Nat → Int
  | [], i => (i : Int)
  | _ :: rs, i => if (i : Int) > e then (i : Int) else videoRetAux e rs (i + 1)

/-- Decimal digits (most significant first) of a natural number, with
`fuel` bounding the recursion depth (`fuel = n` suffices); models Python's
decimal formatting of `i` in `"frame_{0:08d}".format(i)`. -/
def decDigitsAux : Nat → Nat → List Nat
  | 0, n => [n % 10]
  | fuel + 1, n => if n < 10 then [n] else decDigitsAux fuel (n / 10) ++ [n % 10]

/-- Decimal digit list of `n`, most significant digit first. -/
def decDigits (n : Nat) : List Nat := decDigitsAux n n

/-- The digit field of `"frame_{0:08d}".format(i)`: the decimal digits of
`i` left-padded with zeros to width 8 (longer numbers keep all digits). -/
def pad8 (n : Nat) : List Nat :=
  List.replicate (8 - (decDigits n).length) 0 ++ decDigits n

/-- Fixed-width digit window: the `k` low-order decimal digit positions of
`i`, most significant of the window first.  For `i < 10^k` this equals the
zero-padded decimal representation; used to reason about `pad8`. -/
def padDigits : Nat → Nat → List Nat
  | 0, _ => []
  | k + 1, i => i / 10 ^ k % 10 :: padDigits k i

/-- Character codes of the filename part `"frame_"`. -/
def nameHead : List Nat := [102, 114, 97, 109, 101, 95]

/-- Character codes of the filename part `".png"`. -/
def nameTail : List Nat := [46, 112, 110, 103]

/-- Character-code list of the cache filename `"frame_{0:08d}.png".format(i)`
(a decimal digit `d` has character code `48 + d`). -/
def frameName (i : Nat) : List Nat :=
  nameHead ++ (pad8 i).map (fun d => 48 + d) ++ nameTail

/-- Strict lexicographic order on character-code lists: exactly the `<`
that Python's `sorted` uses on the cache filenames. -/
def lexLt : List Nat → List Nat → Bool
  | [], [] => false
  | [], _ :: _ => true
  | _ :: _, [] => false
  | a :: as, b :: bs => if a < b then true else if a = b then lexLt as bs else false

/-- The sort relation of `sorted(glob(images_directory + ...))` on frame
indices: index `i` comes no later than `j` when the filename of `j` is not
strictly below that of `i`. -/
def nameLe (i j : Nat) : Prop := lexLt (frameName j) (frameName i) = false

instance : DecidableRel nameLe := fun i j =>
  inferInstanceAs (Decidable (lexLt (frameName j) (frameName i) = false))

/-- Order in which `main` (frame_manager/frame_manager.py:281,296) reads the
persisted cache frames back: ascending lexicographic filename order. -/
def readOrder (persisted : List Nat) : List Nat := List.insertionSort nameLe persisted

/-- Overlay condition of the read loop (frame_manager/frame_manager.py:302):
`if args.overlap is not None and i < 38`, where `i` is the `enumerate`
position in the sorted processed list. -/
def overlayApplied (overlapSet : Bool) (i : Nat) : Bool := overlapSet && decide (i < 38)

/-- The read loop `for i, image_path in tqdm(enumerate(images_list_path))`
(frame_manager/frame_manager.py:296-310): pairs each processed frame (its
extraction index) with whether the overlay step was applied to it. -/
def processLoop (overlapSet : Bool) : Nat → List Nat → List (Nat × Bool)
  | _, [] => []
  | i, idx :: rest => (idx, overlayApplied overlapSet i) :: processLoop overlapSet (i + 1) rest

/-- Transform stage of a container run: frames are read back in filename
order and the overlay eligibility is decided by enumerate position. -/
def mainProcess (persisted : List Nat) (overlapSet : Bool) : List (Nat × Bool) :=
  processLoop overlapSet 0 (readOrder persisted)

/-- Python list slicing `l[s : e]` with step 1: negative bounds count from
the end, then both are clamped to `[0, len(l)]`. -/
def pySlice {α : Type} (l : List α) (s e : Int) : List α :=
  let L : Int := l.length
  let s1 : Nat := (if s < 0 then max (L + s) 0 else min s L).toNat
  let e1 : Nat := (if e < 0 then max (L + e) 0 else min e L).toNat
  (l.drop s1).take (e1 - s1)

/-- Directory backend of `main` (frame_manager/frame_manager.py:281-283):
the matching files are sorted, indexed by position, and the range filter is
the Python slice `images_list_path[start_idx : end_idx]`.  We track the
positions (= frame indices) of the kept images. -/
def dirProcessedIdx (n : Nat) (s e : Int) : List Nat := pySlice (List.range n) s e

/-- Container-video path of `main` (frame_manager/frame_manager.py:270-285):
runs `extract_video`, raises `Exception("Extraction error.")` when the
returned value equals 0, then lists the cache; an empty listing raises
`Exception('Not file found with pattern: ...')`; otherwise the run proceeds
with the sorted index list. -/
def mainContainerVideo {α : Type} (skip s e : Int) (frames : List α) :
    Except PyErr (List Nat) :=
  match extract_video skip s e frames with
  | .error pe => .error pe
  | .ok p =>
    if p.2 = 0 then .error .extractionError
    else
      if (readOrder (p.1.map Prod.fst)).length = 0 then .error .noFilesFound
      else .ok (readOrder (p.1.map Prod.fst))

/-- `numpy.array_split(l, n)` (gif_maker/gif_maker.py:320): `n` contiguous
chunks; the first `len(l) % n` chunks have size `len(l) // n + 1`, the rest
size `len(l) // n`.  Equivalently, each step takes
`len(l) // n + (1 if len(l) % n != 0 else 0)` elements. -/
def arraySplit {α : Type} (l : List α) : Nat → List (List α)
  | 0 => []
  | n + 1 =>
    l.take (l.length / (n + 1) + (if l.length % (n + 1) = 0 then 0 else 1)) ::
      arraySplit (l.drop (l.length / (n + 1) + (if l.length % (n + 1) = 0 then 0 else 1))) n

/-- The keep condition of the gif extraction loop at index `i`:
`start_idx ≤ i ≤ end_idx` and `i % skip == 0`. -/
def keptCond (skip s e : Int) (i : Nat) : Bool :=
  decide (s ≤ (i : Int)) && decide ((i : Int) ≤ e) && decide (Int.fmod (i : Int) skip = 0)

/-- Canvas size computed by `rotate_image`
(frame_manager/frame_manager.py:110-134): `rad = radians(angle_deg)`,
`b_w = int(h*abs(sin rad) + w*abs(cos rad))`,
`b_h = int(h*abs(cos rad) + w*abs(sin rad))`; `cv2.warpAffine` is called
with output size `(b_w, b_h)`.  `int()` on these nonnegative values is the
floor.  Python floats are modelled by real numbers. -/
noncomputable def rotateCanvas (h w : Nat) (angleDeg : ℝ) : Int × Int :=
  let rad := angleDeg * Real.pi / 180
  (⌊(h : ℝ) * |Real.sin rad| + (w : ℝ) * |Real.cos rad|⌋,
   ⌊(h : ℝ) * |Real.cos rad| + (w : ℝ) * |Real.sin rad|⌋)

/-- The two directories a run touches: the input directory itself and the
`tmp_images/` cache created inside it. -/
inductive RunDir
  | input
  | tmpImages
  deriving DecidableEq, Repr

/-- `images_directory` of both frame-manager variants: the input directory,
with `tmp_images/` appended exactly when the input path is a file. -/
def images_directory (isFile : Bool) : RunDir :=
  if isFile then .tmpImages else .input

/-- Whether a temp frame cache was created (both variants:
`makedirs` runs only under `os.path.isfile(input_path)`). -/
def fm_cacheCreated (isFile : Bool) : Bool := isFile

/-- Cleanup of frame_manager/frame_manager.py:351-353: the directory whose
contents are removed, if any (`if not args.keep_extracted_imgs and
path.isfile(args.input_path)`). -/
def fm_removedDir (isFile keep : Bool) : Option RunDir :=
  if !keep && isFile then some (images_directory isFile) else none

/-- Cleanup of gif_maker/frame_manager.py:240-242: same removal of
`images_directory`, but guarded only by `if not args.keep_extracted_imgs`
(no `isfile` test). -/
def gm_removedDir (isFile keep : Bool) : Option RunDir :=
  if !keep then some (images_directory isFile) else none

/-! ## Arithmetic helper lemmas -/

theorem fmod_eq_zero_iff_dvd (a b : Int) (hb : b ≠ 0) : Int.fmod a b = 0 ↔ b ∣ a := by
  constructor
  · intro h
    have h2 := Int.fdiv_add_fmod a b
    rw [h, add_zero] at h2
    exact ⟨a.fdiv b, h2.symm⟩
  · rintro ⟨c, rfl⟩
    rw [Int.fmod_def, Int.mul_fdiv_cancel_left c hb]
    ring

/-! ## Behaviour of the gif extraction loop -/

theorem gifLoop_eq_filter (skip s e : Int) (hskip : skip ≠ 0) :
    ∀ l : List Nat, l.Pairwise (· ≤ ·) →
      gifLoop skip s e l = .ok (l.filter (keptCond skip s e)) := by
  intro l
  induction l with
  | nil => intro _; rfl
  | cons i rest ih =>
    intro hp
    have hrest : rest.Pairwise (· ≤ ·) := hp.of_cons
    have hhead : ∀ j ∈ rest, i ≤ j := fun j hj => List.rel_of_pairwise_cons hp hj
    by_cases h1 : (i : Int) < s
    · have hc : keptCond skip s e i = false := by
        simp only [keptCond, Bool.and_eq_false_iff, decide_eq_false_iff_not]
        left; left; omega
      simp only [gifLoop, if_pos h1, List.filter_cons, hc]
      simpa using ih hrest
    · by_cases h2 : (i : Int) > e
      · have hall : (i :: rest).filter (keptCond skip s e) = [] := by
          rw [List.filter_eq_nil_iff]
          intro a ha
          rcases List.mem_cons.mp ha with rfl | hmem
          · simp only [keptCond, Bool.and_eq_true, decide_eq_true_eq, not_and]
            intro _ h
            omega
          · have hia := hhead a hmem
            simp only [keptCond, Bool.and_eq_true, decide_eq_true_eq, not_and]
            intro _ h
            exfalso
            have : (i : Int) ≤ (a : Int) := by exact_mod_cast hia
            omega
        simp only [gifLoop, if_neg h1, if_pos h2, hall]
      · by_cases h3 : Int.fmod (i : Int) skip = 0
        · have hc : keptCond skip s e i = true := by
            simp only [keptCond, Bool.and_eq_true, decide_eq_true_eq]
            exact ⟨⟨by omega, by omega⟩, h3⟩
          simp only [gifLoop, if_neg h1, if_neg h2, if_neg hskip, if_pos h3, ih hrest,
            List.filter_cons, hc, if_pos]
          rfl
        · have hc : keptCond skip s e i = false := by
            simp only [keptCond, Bool.and_eq_false_iff, decide_eq_false_iff_not]
            right; exact h3
          simp only [gifLoop, if_neg h1, if_neg h2, if_neg hskip, if_neg h3, ih hrest,
            List.filter_cons, hc]
          simp

theorem gifPersisted_eq (n : Nat) (skip s e : Int) (hskip : skip ≠ 0) :
    gifPersisted n skip s e = (List.range n).filter (keptCond skip s e) := by
  unfold gifPersisted extract_gif
  rw [gifLoop_eq_filter skip s e hskip _ (List.pairwise_le_range n)]
  rfl

theorem mem_gifPersisted (n : Nat) (skip s e : Int) (hskip : skip ≠ 0) (i : Nat) :
    i ∈ gifPersisted n skip s e ↔
      s ≤ (i : Int) ∧ (i : Int) ≤ e ∧ skip ∣ (i : Int) ∧ i < n := by
  rw [gifPersisted_eq n skip s e hskip, List.mem_filter, List.mem_range]
  simp only [keptCond, Bool.and_eq_true, decide_eq_true_eq]
  rw [fmod_eq_zero_iff_dvd _ _ hskip]
  tauto

theorem gifLoop_zero_skip (s e : Int) :
    ∀ l : List Nat, l.Pairwise (· ≤ ·) →
      (∃ i ∈ l, s ≤ (i : Int) ∧ (i : Int) ≤ e) →
      gifLoop 0 s e l = .error .zeroDivision := by
  intro l
  induction l with
  | nil => rintro _ ⟨i, hi, _⟩; cases hi
  | cons a rest ih =>
    rintro hp ⟨i, hi, his, hie⟩
    have hrest : rest.Pairwise (· ≤ ·) := hp.of_cons
    have hhead : ∀ j ∈ rest, a ≤ j := fun j hj => List.rel_of_pairwise_cons hp hj
    by_cases h1 : (a : Int) < s
    · have hne : i ≠ a := by rintro rfl; omega
      have hmem : i ∈ rest := (List.mem_cons.mp hi).resolve_left hne
      simp only [gifLoop, if_pos h1]
      exact ih hrest ⟨i, hmem, his, hie⟩
    · by_cases h2 : (a : Int) > e
      · exfalso
        rcases List.mem_cons.mp hi with rfl | hmem
        · omega
        · have hai := hhead i hmem
          have : (a : Int) ≤ (i : Int) := by exact_mod_cast hai
          omega
      · simp [gifLoop, if_neg h1, if_neg h2]

theorem extract_gif_zero_skip (n : Nat) (s e : Int)
    (h : ∃ i : Nat, i < n ∧ s ≤ (i : Int) ∧ (i : Int) ≤ e) :
    extract_gif n 0 s e = .error .zeroDivision := by
  obtain ⟨i, hin, his, hie⟩ := h
  unfold extract_gif
  rw [gifLoop_zero_skip s e _ (List.pairwise_le_range n)
    ⟨i, List.mem_range.mpr hin, his, hie⟩]
  rfl

/-! ## Behaviour of the video extraction loop -/

theorem videoProcess_eq_aux {α : Type} (skip e : Int) (hskip : skip ≠ 0) :
    ∀ (rest : List α) (i : Nat) (img : α),
      videoProcess skip e rest i img =
        .ok (videoWritesAux skip e rest i img, videoRetAux e rest i) := by
  intro rest
  induction rest with
  | nil =>
    intro i img
    by_cases h : (i : Int) > e
    · simp only [videoProcess, videoWritesAux, videoRetAux, if_pos h]
    · simp only [videoProcess, videoWritesAux, videoRetAux, if_neg h, if_neg hskip]
  | cons r rs ih =>
    intro i img
    by_cases h : (i : Int) > e
    · simp only [videoProcess, videoWritesAux, videoRetAux, if_pos h]
    · simp only [videoProcess, videoWritesAux, videoRetAux, if_neg h, if_neg hskip,
        ih (i + 1) r, Except.map]

theorem videoWritesAux_mem {α : Type} (skip e : Int) :
    ∀ (rest : List α) (i : Nat) (img : α) (p : Nat × α),
      p ∈ videoWritesAux skip e rest i img →
      i ≤ p.1 ∧ (p.1 : Int) ≤ e ∧ Int.fmod (p.1 : Int) skip = 0 ∧
        (img :: rest).get? (p.1 - i) = some p.2 := by
  intro rest
  induction rest with
  | nil =>
    intro i img p hp
    by_cases h : (i : Int) > e
    · rw [videoWritesAux, if_pos h] at hp
      cases hp
    · rw [videoWritesAux, if_neg h] at hp
      by_cases h2 : Int.fmod (i : Int) skip = 0
      · rw [if_pos h2, List.mem_singleton] at hp
        subst hp
        refine ⟨le_refl _, by omega, h2, ?_⟩
        simp
      · rw [if_neg h2] at hp
        cases hp
  | cons r rs ih =>
    intro i img p hp
    by_cases h : (i : Int) > e
    · rw [videoWritesAux, if_pos h] at hp
      cases hp
    · rw [videoWritesAux, if_neg h] at hp
      rcases List.mem_append.mp hp with hw | htail
      · by_cases h2 : Int.fmod (i : Int) skip = 0
        · rw [if_pos h2, List.mem_singleton] at hw
          subst hw
          refine ⟨le_refl _, by omega, h2, ?_⟩
          simp
        · rw [if_neg h2] at hw
          cases hw
      · obtain ⟨hle, hbound, hmod, hget⟩ := ih (i + 1) r p htail
        refine ⟨by omega, hbound, hmod, ?_⟩
        have hidx : p.1 - i = (p.1 - (i + 1)) + 1 := by omega
        rw [hidx, List.get?_cons_succ]
        exact hget

theorem videoWritesAux_mem_of {α : Type} (skip e : Int) :
    ∀ (rest : List α) (i : Nat) (img : α) (x : Nat),
      i ≤ x → (x : Int) ≤ e → Int.fmod (x : Int) skip = 0 → x < i + rest.length + 1 →
      ∃ y, (x, y) ∈ videoWritesAux skip e rest i img := by
  intro rest
  induction rest with
  | nil =>
    intro i img x hix hxe hmod hlt
    have hx : x = i := by simp at hlt; omega
    subst hx
    have h : ¬ (x : Int) > e := by omega
    refine ⟨img, ?_⟩
    rw [videoWritesAux, if_neg h, if_pos hmod]
    exact List.mem_singleton.mpr rfl
  | cons r rs ih =>
    intro i img x hix hxe hmod hlt
    have h : ¬ (i : Int) > e := by
      have : (i : Int) ≤ (x : Int) := by exact_mod_cast hix
      omega
    by_cases hxi : x = i
    · subst hxi
      refine ⟨img, ?_⟩
      rw [videoWritesAux, if_neg h, if_pos hmod]
      exact List.mem_append_left _ (List.mem_singleton.mpr rfl)
    · obtain ⟨y, hy⟩ := ih (i + 1) r x (by omega) hxe hmod (by simp at hlt ⊢; omega)
      refine ⟨y, ?_⟩
      rw [videoWritesAux, if_neg h]
      exact List.mem_append_right _ hy

theorem videoWritesAux_pairwise {α : Type} (skip e : Int) :
    ∀ (rest : List α) (i : Nat) (img : α),
      (videoWritesAux skip e rest i img).Pairwise (fun p q => p.1 < q.1) := by
  intro rest
  induction rest with
  | nil =>
    intro i img
    rw [videoWritesAux]
    split
    · exact List.Pairwise.nil
    · split
      · exact List.pairwise_singleton _ _
      · exact List.Pairwise.nil
  | cons r rs ih =>
    intro i img
    rw [videoWritesAux]
    split
    · exact List.Pairwise.nil
    · rw [List.pairwise_append]
      refine ⟨?_, ih (i + 1) r, ?_⟩
      · split
        · exact List.pairwise_singleton _ _
        · exact List.Pairwise.nil
      · intro p hp q hq
        have hq1 : i + 1 ≤ q.1 := (videoWritesAux_mem skip e rs (i + 1) r q hq).1
        have hp1 : p.1 = i := by
          revert hp
          split
          · intro hp
            rw [List.mem_singleton] at hp
            subst hp
            rfl
          · intro hp
            cases hp
        omega

theorem videoRetAux_spec {α : Type} (e : Int) :
    ∀ (rest : List α) (i : Nat),
      videoRetAux e rest i =
        if e < (i : Int) then (i : Int) else min ((i : Int) + rest.length) (e + 1) := by
  intro rest
  induction rest with
  | nil =>
    intro i
    rw [videoRetAux]
    split
    · rfl
    · simp only [List.length_nil, Nat.cast_zero, add_zero]
      omega
  | cons r rs ih =>
    intro i
    rw [videoRetAux, ih (i + 1)]
    simp only [List.length_cons]
    split
    · rfl
    · split <;> push_cast <;> omega

theorem extract_video_cons {α : Type} (skip s e : Int) (hskip : skip ≠ 0)
    (f : α) (rest : List α) :
    extract_video skip s e (f :: rest) =
      .ok (videoWritesAux skip e rest s.toNat f, videoRetAux e rest s.toNat) :=
  videoProcess_eq_aux skip e hskip rest s.toNat f

theorem videoWrites_cons {α : Type} (skip s e : Int) (hskip : skip ≠ 0)
    (f : α) (rest : List α) :
    videoWrites skip s e (f :: rest) = videoWritesAux skip e rest s.toNat f := by
  unfold videoWrites
  rw [extract_video_cons skip s e hskip f rest]

theorem videoRet_cons {α : Type} (skip s e : Int) (hskip : skip ≠ 0)
    (f : α) (rest : List α) :
    videoRet skip s e (f :: rest) = videoRetAux e rest s.toNat := by
  unfold videoRet
  rw [extract_video_cons skip s e hskip f rest]

theorem mem_videoWrites_fst {α : Type} (skip s e : Int) (hskip : skip ≠ 0)
    (frames : List α) (x : Nat) :
    x ∈ (videoWrites skip s e frames).map Prod.fst ↔
      s.toNat ≤ x ∧ (x : Int) ≤ e ∧ skip ∣ (x : Int) ∧ x < s.toNat + frames.length := by
  cases frames with
  | nil =>
    simp only [videoWrites, extract_video, List.map_nil, List.not_mem_nil, false_iff,
      List.length_nil, add_zero, not_and]
    intro h1 _ _
    omega
  | cons f rest =>
    rw [videoWrites_cons skip s e hskip f rest]
    constructor
    · intro hx
      obtain ⟨p, hp, rfl⟩ := List.mem_map.mp hx
      obtain ⟨h1, h2, h3, h4⟩ := videoWritesAux_mem skip e rest s.toNat f p hp
      have hlt : p.1 - s.toNat < (f :: rest).length := by
        obtain ⟨hl, _⟩ := List.get?_eq_some.mp h4
        exact hl
      simp only [List.length_cons] at hlt ⊢
      exact ⟨h1, h2, (fmod_eq_zero_iff_dvd _ _ hskip).mp h3, by omega⟩
    · rintro ⟨h1, h2, h3, h4⟩
      simp only [List.length_cons] at h4
      obtain ⟨y, hy⟩ := videoWritesAux_mem_of skip e rest s.toNat f x h1 h2
        ((fmod_eq_zero_iff_dvd _ _ hskip).mpr h3) (by omega)
      exact List.mem_map.mpr ⟨(x, y), hy, rfl⟩

theorem videoWrites_content {α : Type} (skip s e : Int) (hskip : skip ≠ 0)
    (frames : List α) (i : Nat) (img : α) :
    (i, img) ∈ videoWrites skip s e frames →
    s.toNat ≤ i ∧ (i : Int) ≤ e ∧ Int.fmod (i : Int) skip = 0 ∧
      frames.get? (i - s.toNat) = some img := by
  cases frames with
  | nil =>
    intro h
    simp [videoWrites, extract_video] at h
  | cons f rest =>
    intro h
    rw [videoWrites_cons skip s e hskip f rest] at h
    exact videoWritesAux_mem skip e rest s.toNat f (i, img) h

theorem videoRet_full {α : Type} (skip e : Int) (hskip : skip ≠ 0) (frames : List α)
    (hne : frames ≠ []) (he : (frames.length : Int) - 1 ≤ e) :
    videoRet skip 0 e frames = (frames.length : Int) - 1 := by
  cases frames with
  | nil => cases hne rfl
  | cons f rest =>
    have hr : videoRet skip 0 e (f :: rest) = videoRetAux e rest (0 : Int).toNat :=
      videoRet_cons skip 0 e hskip f rest
    rw [hr, show (0 : Int).toNat = 0 from rfl, videoRetAux_spec]
    simp only [List.length_cons] at he ⊢
    push_cast at he ⊢
    split <;> omega

/-! ## Claim C1 -/

/-- C1, counterexample: a 1-frame gif with `skip = 1`, `start_idx = 0`,
`end_idx = 1` persists only index 0, while the claimed set
`{i : start_idx ≤ i ≤ end_idx, i mod skip = 0}` also contains index 1:
the claimed equality fails once the range reaches past the source. -/
theorem keptSet_range_beyond_source_cex :
    gifPersisted 1 1 0 1 = [0] ∧
    ((0 : Int) ≤ ((1 : Nat) : Int) ∧ ((1 : Nat) : Int) ≤ (1 : Int) ∧
      Int.fmod ((1 : Nat) : Int) 1 = 0) ∧
    (1 : Nat) ∉ gifPersisted 1 1 0 1 := by
  refine ⟨rfl, by norm_num, ?_⟩
  intro h
  rw [show gifPersisted 1 1 0 1 = [0] from rfl] at h
  simp at h

/-- C1, amended: for `skip ≥ 1`, the set of indices persisted to the temp
cache is `{i : start_idx ≤ i ≤ end_idx, i mod skip = 0}` intersected with
the indices the source actually supplies — `i < n_frames` for a gif, and
`start_idx.toNat ≤ i < start_idx.toNat + frame_count` for a video (whose
loop index keeps advancing past `start_idx` without consuming frames).
Whenever the range lies inside the source, this is the claimed set. -/
theorem keptSet_characterization :
    (∀ (n : Nat) (skip s e : Int) (i : Nat), 1 ≤ skip →
      (i ∈ gifPersisted n skip s e ↔
        s ≤ (i : Int) ∧ (i : Int) ≤ e ∧ skip ∣ (i : Int) ∧ i < n)) ∧
    (∀ (skip s e : Int) (frames : List Nat) (x : Nat), 1 ≤ skip →
      (x ∈ (videoWrites skip s e frames).map Prod.fst ↔
        s.toNat ≤ x ∧ (x : Int) ≤ e ∧ skip ∣ (x : Int) ∧
          x < s.toNat + frames.length)) :=
  ⟨fun n skip s e i h => mem_gifPersisted n skip s e (by omega) i,
   fun skip s e frames x h => mem_videoWrites_fst skip s e (by omega) frames x⟩

/-- Witness for `keptSet_characterization` at concrete inputs. -/
theorem keptSet_characterization_witness :
    ((4 : Nat) ∈ gifPersisted 10 2 0 9 ↔
      (0 : Int) ≤ ((4 : Nat) : Int) ∧ ((4 : Nat) : Int) ≤ 9 ∧
        (2 : Int) ∣ ((4 : Nat) : Int) ∧ (4 : Nat) < 10) ∧
    ((4 : Nat) ∈ (videoWrites 2 3 20 [100, 101, 102, 103, 104]).map Prod.fst ↔
      (3 : Int).toNat ≤ 4 ∧ ((4 : Nat) : Int) ≤ 20 ∧ (2 : Int) ∣ ((4 : Nat) : Int) ∧
        (4 : Nat) < (3 : Int).toNat + [100, 101, 102, 103, 104].length) :=
  ⟨keptSet_characterization.1 10 2 0 9 4 (by norm_num),
   keptSet_characterization.2 2 3 20 [100, 101, 102, 103, 104] 4 (by norm_num)⟩

/-! ## Claim C9 -/

/-- C9, counterexample: with decimation factor `skip = -2 ≤ 0` the gif
extraction does not fail at all — it silently keeps the frames whose index
is a multiple of 2 (Python `i % -2 == 0` iff `2 ∣ i`) and returns normally,
so no `InvalidConfiguration`-style error is surfaced. -/
theorem negative_skip_no_error_cex :
    extract_gif 10 (-2) 0 100 = .ok ([0, 2, 4, 6, 8], 10) := rfl

/-- C9, amended: the scripts never validate `skip`.  For `skip = 0` the
first in-range frame index raises Python's untyped `ZeroDivisionError`
(`i % 0`), and for `skip < 0` extraction succeeds silently, keeping exactly
the frames whose index is divisible by `|skip|`; no configuration error
exists in the code. -/
theorem skip_nonpositive_behavior :
    (∀ (n : Nat) (s e : Int),
      (∃ i : Nat, i < n ∧ s ≤ (i : Int) ∧ (i : Int) ≤ e) →
      extract_gif n 0 s e = .error .zeroDivision) ∧
    (∀ (n : Nat) (skip s e : Int) (i : Nat), skip < 0 →
      (i ∈ gifPersisted n skip s e ↔
        s ≤ (i : Int) ∧ (i : Int) ≤ e ∧ skip ∣ (i : Int) ∧ i < n)) :=
  ⟨fun n s e h => extract_gif_zero_skip n s e h,
   fun n skip s e i h => mem_gifPersisted n skip s e (by omega) i⟩

/-- Witness for `skip_nonpositive_behavior` at concrete inputs. -/
theorem skip_nonpositive_behavior_witness :
    extract_gif 4 0 0 5 = .error .zeroDivision ∧
    ((2 : Nat) ∈ gifPersisted 10 (-2) 0 9 ↔
      (0 : Int) ≤ ((2 : Nat) : Int) ∧ ((2 : Nat) : Int) ≤ 9 ∧
        (-2 : Int) ∣ ((2 : Nat) : Int) ∧ (2 : Nat) < 10) :=
  ⟨skip_nonpositive_behavior.1 4 0 5 ⟨0, by norm_num⟩,
   skip_nonpositive_behavior.2 10 (-2) 0 9 2 (by norm_num)⟩

/-! ## Claim C10 -/

/-- C10: the `continue` in `extract_video` skips the `read()` call, so the
frame persisted under kept index `i` holds the decoded content of video
frame `i - start_idx` (the first decoded frame is written at index
`start_idx`); and the function returns the last loop index `i`, which is
`-1` when zero frames decode (not 0, and not the number of frames
extracted) and `count - 1` for a fully read `count`-frame video with
`start_idx = 0`. -/
theorem video_offset_and_return :
    (∀ (skip s e : Int) (frames : List Nat) (i : Nat) (img : Nat),
      1 ≤ skip → 0 < s →
      (i, img) ∈ videoWrites skip s e frames →
      s.toNat ≤ i ∧ (i : Int) ≤ e ∧ Int.fmod (i : Int) skip = 0 ∧
        frames.get? (i - s.toNat) = some img) ∧
    (∀ skip s e : Int, extract_video skip s e ([] : List Nat) = .ok ([], -1)) ∧
    (∀ (skip e : Int) (frames : List Nat), 1 ≤ skip → frames ≠ [] →
      (frames.length : Int) - 1 ≤ e →
      videoRet skip 0 e frames = (frames.length : Int) - 1) :=
  ⟨fun skip s e frames i img hskip _ hmem =>
      videoWrites_content skip s e (by omega) frames i img hmem,
   fun _ _ _ => rfl,
   fun skip e frames hskip hne he => videoRet_full skip e (by omega) frames hne he⟩

/-- Witness for `video_offset_and_return` at concrete inputs: with
`start_idx = 3` the file written under index 4 holds video frame 1
(content 101), and a fully decoded 3-frame video returns 2. -/
theorem video_offset_and_return_witness :
    ((3 : Int).toNat ≤ 4 ∧ ((4 : Nat) : Int) ≤ 20 ∧
      Int.fmod ((4 : Nat) : Int) 2 = 0 ∧
      [100, 101, 102, 103, 104].get? (4 - (3 : Int).toNat) = some 101) ∧
    extract_video 1 0 1000 ([] : List Nat) = .ok ([], -1) ∧
    videoRet 1 0 10 [5, 6, 7] = ([5, 6, 7].length : Int) - 1 :=
  ⟨video_offset_and_return.1 2 3 20 [100, 101, 102, 103, 104] 4 101
      (by norm_num) (by norm_num) (by decide),
   video_offset_and_return.2.1 1 0 1000,
   video_offset_and_return.2.2 1 10 [5, 6, 7] (by norm_num) (by decide) (by norm_num)⟩

/-! ## Claim C4 -/

/-- C4: a video yielding zero decodable frames does NOT take the
extraction-error branch.  `extract_video` returns `-1` (its loop never
ran), so `main`'s `if number_of_frames == 0` check does not fire —
contradicting `extract_video`'s own docstring, which promises the number
of frames extracted — and the run instead dies later with
`'Not file found with pattern: ...'` (the `NoFramesMatchFilter`-style
error) when the empty temp cache is listed. -/
theorem empty_video_error_mismatch :
    mainContainerVideo 1 0 1000 ([] : List Nat) = .error .noFilesFound ∧
    videoRet 1 0 1000 ([] : List Nat) = -1 ∧
    mainContainerVideo 1 0 1000 ([] : List Nat) ≠ .error .extractionError := by
  refine ⟨rfl, rfl, ?_⟩
  intro h
  rw [show mainContainerVideo 1 0 1000 ([] : List Nat) = .error .noFilesFound from rfl] at h
  cases h

/-! ## Decimal digits and the zero-padded cache filenames -/

theorem decDigitsAux_congr :
    ∀ (n f g : Nat), n ≤ f → n ≤ g → decDigitsAux f n = decDigitsAux g n := by
  intro n
  induction n using Nat.strong_induction_on with
  | _ n ih =>
    intro f g hf hg
    match f, g with
    | 0, 0 => rfl
    | 0, g + 1 =>
      have hn : n = 0 := Nat.le_zero.mp hf
      subst hn
      simp [decDigitsAux]
    | f + 1, 0 =>
      have hn : n = 0 := Nat.le_zero.mp hg
      subst hn
      simp [decDigitsAux]
    | f + 1, g + 1 =>
      simp only [decDigitsAux]
      by_cases h : n < 10
      · rw [if_pos h, if_pos h]
      · rw [if_neg h, if_neg h,
          ih (n / 10) (Nat.div_lt_self (by omega) (by omega)) f g (by omega) (by omega)]

theorem decDigits_lt10 (n : Nat) (h : n < 10) : decDigits n = [n] := by
  unfold decDigits
  match n, h with
  | 0, _ => rfl
  | m + 1, h => simp [decDigitsAux, h]

theorem decDigits_ge10 (n : Nat) (h : 10 ≤ n) :
    decDigits n = decDigits (n / 10) ++ [n % 10] := by
  unfold decDigits
  obtain ⟨m, rfl⟩ : ∃ m, n = m + 1 := ⟨n - 1, by omega⟩
  simp only [decDigitsAux, if_neg (by omega : ¬ m + 1 < 10)]
  rw [decDigitsAux_congr ((m + 1) / 10) m ((m + 1) / 10) (by omega) (le_refl _)]

theorem padDigits_length (k n : Nat) : (padDigits k n).length = k := by
  induction k with
  | zero => rfl
  | succ k ih => simp [padDigits, ih]

theorem padDigits_succ_app (k n : Nat) :
    padDigits (k + 1) n = padDigits k (n / 10) ++ [n % 10] := by
  induction k generalizing n with
  | zero => simp [padDigits]
  | succ k ih =>
    have hd : n / 10 / 10 ^ k = n / 10 ^ (k + 1) := by
      rw [Nat.div_div_eq_div_mul]
      congr 1
      rw [pow_succ, mul_comm]
    calc padDigits (k + 2) n
        = n / 10 ^ (k + 1) % 10 :: padDigits (k + 1) n := rfl
      _ = n / 10 ^ (k + 1) % 10 :: (padDigits k (n / 10) ++ [n % 10]) := by rw [ih n]
      _ = (n / 10 / 10 ^ k % 10 :: padDigits k (n / 10)) ++ [n % 10] := by
            rw [hd]; rfl
      _ = padDigits (k + 1) (n / 10) ++ [n % 10] := rfl

theorem padDigits_zeros (k m n : Nat) (h : n < 10 ^ k) :
    padDigits (k + m) n = List.replicate m 0 ++ padDigits k n := by
  induction m with
  | zero => rfl
  | succ m ih =>
    have hz : n / 10 ^ (k + m) = 0 := by
      apply Nat.div_eq_of_lt
      calc n < 10 ^ k := h
        _ ≤ 10 ^ (k + m) := Nat.pow_le_pow_right (by omega) (by omega)
    calc padDigits (k + (m + 1)) n
        = n / 10 ^ (k + m) % 10 :: padDigits (k + m) n := rfl
      _ = 0 :: (List.replicate m 0 ++ padDigits k n) := by rw [hz, ih]
      _ = List.replicate (m + 1) 0 ++ padDigits k n := rfl

theorem decDigits_len_le :
    ∀ (k n : Nat), 1 ≤ k → n < 10 ^ k → (decDigits n).length ≤ k := by
  intro k
  induction k with
  | zero => omega
  | succ k ih =>
    intro n _ hn
    by_cases h : n < 10
    · rw [decDigits_lt10 n h]
      simp
    · have hk : 1 ≤ k := by
        by_contra hk0
        have : k = 0 := by omega
        subst this
        simp at hn
        omega
      rw [decDigits_ge10 n (by omega)]
      have hdiv : n / 10 < 10 ^ k := by
        rw [Nat.div_lt_iff_lt_mul (by omega)]
        calc n < 10 ^ (k + 1) := hn
          _ = 10 ^ k * 10 := by rw [pow_succ]
      have := ih (n / 10) hk hdiv
      simp only [List.length_append, List.length_cons, List.length_nil]
      omega

theorem decDigits_eq_padDigits :
    ∀ (k n : Nat), 10 ^ k ≤ n → n < 10 ^ (k + 1) → decDigits n = padDigits (k + 1) n := by
  intro k
  induction k with
  | zero =>
    intro n h1 h2
    have h10 : n < 10 := by simpa using h2
    rw [decDigits_lt10 n h10]
    simp only [padDigits, pow_zero, Nat.div_one]
    rw [Nat.mod_eq_of_lt h10]
  | succ k ih =>
    intro n h1 h2
    have h10 : 10 ≤ n := by
      calc 10 = 10 ^ 1 := (pow_one 10).symm
        _ ≤ 10 ^ (k + 1) := Nat.pow_le_pow_right (by omega) (by omega)
        _ ≤ n := h1
    rw [decDigits_ge10 n h10]
    have hlo : 10 ^ k ≤ n / 10 := by
      rw [Nat.le_div_iff_mul_le (by omega)]
      calc 10 ^ k * 10 = 10 ^ (k + 1) := (pow_succ 10 k).symm
        _ ≤ n := h1
    have hhi : n / 10 < 10 ^ (k + 1) := by
      rw [Nat.div_lt_iff_lt_mul (by omega)]
      calc n < 10 ^ (k + 2) := h2
        _ = 10 ^ (k + 1) * 10 := by rw [pow_succ]
    rw [ih (n / 10) hlo hhi, ← padDigits_succ_app]

theorem pad8_eq_padDigits (n : Nat) (h : n < 10 ^ 8) : pad8 n = padDigits 8 n := by
  by_cases h0 : n = 0
  · subst h0
    decide
  · obtain ⟨k, hk1, hk2⟩ : ∃ k, 10 ^ k ≤ n ∧ n < 10 ^ (k + 1) :=
      ⟨Nat.log 10 n, Nat.pow_log_le_self 10 h0, Nat.lt_pow_succ_log_self (by omega) n⟩
    have hk8 : k + 1 ≤ 8 := by
      by_contra hgt
      have h8k : 10 ^ 8 ≤ 10 ^ k := Nat.pow_le_pow_right (by omega) (by omega)
      omega
    have hlen : (decDigits n).length = k + 1 := by
      rw [decDigits_eq_padDigits k n hk1 hk2, padDigits_length]
    unfold pad8
    rw [hlen, decDigits_eq_padDigits k n hk1 hk2]
    have h8 : 8 = (k + 1) + (8 - (k + 1)) := by omega
    rw [h8, padDigits_zeros (k + 1) (8 - (k + 1)) n hk2]
    have hc : k + 1 + (8 - (k + 1)) - (k + 1) = 8 - (k + 1) := by omega
    rw [hc]

theorem padDigits_mod : ∀ (k n : Nat), padDigits k (n % 10 ^ k) = padDigits k n := by
  intro k
  induction k with
  | zero => intro n; rfl
  | succ k ih =>
    intro n
    have hhead : n % 10 ^ (k + 1) / 10 ^ k % 10 = n / 10 ^ k % 10 := by
      have h1 : n % (10 ^ k * 10) / 10 ^ k = n / 10 ^ k % 10 :=
        Nat.mod_mul_right_div_self n (10 ^ k) 10
      rw [show (10 : Nat) ^ (k + 1) = 10 ^ k * 10 from pow_succ 10 k, h1]
      omega
    have htail : padDigits k (n % 10 ^ (k + 1)) = padDigits k n := by
      have hm : n % 10 ^ (k + 1) % 10 ^ k = n % 10 ^ k := by
        apply Nat.mod_mod_of_dvd
        exact pow_dvd_pow 10 (by omega)
      calc padDigits k (n % 10 ^ (k + 1))
          = padDigits k (n % 10 ^ (k + 1) % 10 ^ k) := (ih _).symm
        _ = padDigits k (n % 10 ^ k) := by rw [hm]
        _ = padDigits k n := ih n
    calc padDigits (k + 1) (n % 10 ^ (k + 1))
        = n % 10 ^ (k + 1) / 10 ^ k % 10 :: padDigits k (n % 10 ^ (k + 1)) := rfl
      _ = n / 10 ^ k % 10 :: padDigits k n := by rw [hhead, htail]

theorem padDigits_lt_lexLt :
    ∀ (k i j : Nat), i < 10 ^ k → j < 10 ^ k → i < j →
      lexLt (padDigits k i) (padDigits k j) = true := by
  intro k
  induction k with
  | zero =>
    intro i j _ hj hij
    simp at hj
    omega
  | succ k ih =>
    intro i j hi hj hij
    have hdi : i / 10 ^ k < 10 := by
      rw [Nat.div_lt_iff_lt_mul (Nat.pos_pow_of_pos k (by omega))]
      calc i < 10 ^ (k + 1) := hi
        _ = 10 * 10 ^ k := by rw [pow_succ, mul_comm]
    have hdj : j / 10 ^ k < 10 := by
      rw [Nat.div_lt_iff_lt_mul (Nat.pos_pow_of_pos k (by omega))]
      calc j < 10 ^ (k + 1) := hj
        _ = 10 * 10 ^ k := by rw [pow_succ, mul_comm]
    have hheads : padDigits (k + 1) i = i / 10 ^ k :: padDigits k i := by
      show i / 10 ^ k % 10 :: padDigits k i = _
      rw [Nat.mod_eq_of_lt hdi]
    have hheads2 : padDigits (k + 1) j = j / 10 ^ k :: padDigits k j := by
      show j / 10 ^ k % 10 :: padDigits k j = _
      rw [Nat.mod_eq_of_lt hdj]
    rw [hheads, hheads2]
    rcases Nat.lt_trichotomy (i / 10 ^ k) (j / 10 ^ k) with hlt | heq | hgt
    · simp [lexLt, hlt]
    · have hne : ¬ i / 10 ^ k < j / 10 ^ k := by omega
      simp only [lexLt, if_neg hne, if_pos heq]
      have h4 : 10 ^ k * (j / 10 ^ k) + i % 10 ^ k = i := by
        rw [← heq]
        exact Nat.div_add_mod i (10 ^ k)
      have h5 : 10 ^ k * (j / 10 ^ k) + j % 10 ^ k = j := Nat.div_add_mod j (10 ^ k)
      have h6 : 10 ^ k * (j / 10 ^ k) + i % 10 ^ k <
          10 ^ k * (j / 10 ^ k) + j % 10 ^ k := by
        rw [h4, h5]
        exact hij
      have hmod : i % 10 ^ k < j % 10 ^ k := Nat.lt_of_add_lt_add_left h6
      rw [← padDigits_mod k i, ← padDigits_mod k j]
      exact ih (i % 10 ^ k) (j % 10 ^ k)
        (Nat.mod_lt i (Nat.pos_pow_of_pos k (by omega)))
        (Nat.mod_lt j (Nat.pos_pow_of_pos k (by omega))) hmod
    · exfalso
      have hle : i / 10 ^ k ≤ j / 10 ^ k := Nat.div_le_div_right (Nat.le_of_lt hij)
      omega

theorem lexLt_append_same :
    ∀ (p a b : List Nat), lexLt (p ++ a) (p ++ b) = lexLt a b := by
  intro p
  induction p with
  | nil => intro a b; rfl
  | cons c cs ih =>
    intro a b
    simp only [List.cons_append, lexLt, Nat.lt_irrefl, if_neg (lt_irrefl c), if_pos rfl]
    exact ih a b

theorem lexLt_map_add :
    ∀ (a b : List Nat),
      lexLt (a.map (fun d => 48 + d)) (b.map (fun d => 48 + d)) = lexLt a b := by
  intro a
  induction a with
  | nil =>
    intro b
    cases b <;> rfl
  | cons x xs ih =>
    intro b
    cases b with
    | nil => rfl
    | cons y ys =>
      simp only [List.map_cons, lexLt]
      by_cases hlt : x < y
      · rw [if_pos (by omega : 48 + x < 48 + y), if_pos hlt]
      · rw [if_neg (by omega : ¬ 48 + x < 48 + y), if_neg hlt]
        by_cases heq : x = y
        · rw [if_pos (by omega : 48 + x = 48 + y), if_pos heq]
          exact ih ys
        · rw [if_neg (by omega : ¬ 48 + x = 48 + y), if_neg heq]

theorem lexLt_append_len :
    ∀ (a b s t : List Nat), a.length = b.length → lexLt a b = true →
      lexLt (a ++ s) (b ++ t) = true := by
  intro a
  induction a with
  | nil =>
    intro b s t hlen h
    have hb : b = [] := List.eq_nil_of_length_eq_zero hlen.symm
    subst hb
    cases h
  | cons x xs ih =>
    intro b s t hlen h
    cases b with
    | nil => simp at hlen
    | cons y ys =>
      simp only [List.length_cons] at hlen
      simp only [List.cons_append, lexLt] at h ⊢
      by_cases hlt : x < y
      · rw [if_pos hlt]
      · rw [if_neg hlt] at h ⊢
        by_cases heq : x = y
        · rw [if_pos heq] at h ⊢
          exact ih ys s t (by omega) h
        · rw [if_neg heq] at h
          cases h

theorem frameName_lt (i j : Nat) (hij : i < j) (hj : j < 10 ^ 8) :
    lexLt (frameName i) (frameName j) = true := by
  unfold frameName
  rw [List.append_assoc, List.append_assoc, lexLt_append_same]
  have hi : i < 10 ^ 8 := by omega
  rw [pad8_eq_padDigits i hi, pad8_eq_padDigits j hj]
  apply lexLt_append_len
  · simp [padDigits_length]
  · rw [lexLt_map_add]
    exact padDigits_lt_lexLt 8 i j hi hj hij

theorem lexLt_asymm :
    ∀ (a b : List Nat), lexLt a b = true → lexLt b a = false := by
  intro a
  induction a with
  | nil =>
    intro b h
    cases b with
    | nil => cases h
    | cons y ys => rfl
  | cons x xs ih =>
    intro b h
    cases b with
    | nil => cases h
    | cons y ys =>
      simp only [lexLt] at h ⊢
      by_cases hlt : x < y
      · rw [if_neg (by omega : ¬ y < x), if_neg (by omega : ¬ y = x)]
      · rw [if_neg hlt] at h
        by_cases heq : x = y
        · rw [if_pos heq] at h
          rw [if_neg (by omega : ¬ y < x), if_pos heq.symm]
          exact ih ys h
        · rw [if_neg heq] at h
          cases h

theorem nameLe_of_lt (i j : Nat) (hij : i < j) (hj : j < 10 ^ 8) : nameLe i j := by
  unfold nameLe
  exact lexLt_asymm _ _ (frameName_lt i j hij hj)

theorem sorted_readOrder (P : List Nat) (hp : P.Pairwise (· < ·))
    (hb : ∀ x ∈ P, x < 10 ^ 8) : readOrder P = P := by
  unfold readOrder
  apply List.Sorted.insertionSort_eq
  unfold List.Sorted
  apply List.Pairwise.imp_of_mem ?_ hp
  intro a b ha hb2 hab
  exact nameLe_of_lt a b hab (hb b hb2)

/-! ## Claim C2 -/

theorem gifPersisted_pairwise (n : Nat) (skip s e : Int) (hskip : skip ≠ 0) :
    (gifPersisted n skip s e).Pairwise (· < ·) := by
  rw [gifPersisted_eq n skip s e hskip]
  exact (List.pairwise_lt_range n).filter _

theorem gifPersisted_bound (n : Nat) (skip s e : Int) (hskip : skip ≠ 0) :
    ∀ x ∈ gifPersisted n skip s e, x < n := by
  intro x hx
  rw [gifPersisted_eq n skip s e hskip] at hx
  exact List.mem_range.mp (List.mem_filter.mp hx).1

theorem videoWrites_fst_pairwise {α : Type} (skip s e : Int) (hskip : skip ≠ 0)
    (frames : List α) :
    ((videoWrites skip s e frames).map Prod.fst).Pairwise (· < ·) := by
  cases frames with
  | nil => simp [videoWrites, extract_video]
  | cons f rest =>
    rw [videoWrites_cons skip s e hskip f rest, List.pairwise_map]
    exact videoWritesAux_pairwise skip e rest s.toNat f

/-- C2, counterexample: the read stage sorts the cache filenames as
strings; once an index needs nine digits the zero padding no longer aligns,
and `frame_100000000.png` sorts BEFORE `frame_99999999.png`, so the output
frames of a (10^8 + 1)-frame container run are no longer in increasing
`FrameIndex` order (output frame 0 would derive from kept index 10^8). -/
theorem readOrder_eight_digit_cex :
    readOrder [99999999, 100000000] = [100000000, 99999999] := by decide

/-- C2, amended: for every run whose kept indices all fit in the 8-digit
zero padding (below 10^8, the spec's own documented hard limit), the output
frames appear in strictly increasing source `FrameIndex` order and output
frame k derives from the k-th kept index, for all three backends: the
filename sort leaves the gif and video extraction orders unchanged, and
directory-source positions are increasing by construction. -/
theorem output_order_increasing :
    (∀ (n : Nat) (skip s e : Int), skip ≠ 0 → n ≤ 10 ^ 8 →
      readOrder (gifPersisted n skip s e) = gifPersisted n skip s e ∧
      (gifPersisted n skip s e).Pairwise (· < ·)) ∧
    (∀ (skip s e : Int) (frames : List Nat), skip ≠ 0 →
      s.toNat + frames.length ≤ 10 ^ 8 →
      readOrder ((videoWrites skip s e frames).map Prod.fst) =
        (videoWrites skip s e frames).map Prod.fst ∧
      ((videoWrites skip s e frames).map Prod.fst).Pairwise (· < ·)) ∧
    (∀ (n : Nat) (s e : Int), (dirProcessedIdx n s e).Pairwise (· < ·)) := by
  refine ⟨?_, ?_, ?_⟩
  · intro n skip s e hskip hn
    refine ⟨?_, gifPersisted_pairwise n skip s e hskip⟩
    apply sorted_readOrder _ (gifPersisted_pairwise n skip s e hskip)
    intro x hx
    have := gifPersisted_bound n skip s e hskip x hx
    omega
  · intro skip s e frames hskip hb
    refine ⟨?_, videoWrites_fst_pairwise skip s e hskip frames⟩
    apply sorted_readOrder _ (videoWrites_fst_pairwise skip s e hskip frames)
    intro x hx
    have := ((mem_videoWrites_fst skip s e hskip frames x).mp hx).2.2.2
    omega
  · intro n s e
    unfold dirProcessedIdx pySlice
    exact (List.pairwise_lt_range n).sublist
      ((List.take_sublist _ _).trans (List.drop_sublist _ _))

/-- Witness for `output_order_increasing` at concrete inputs. -/
theorem output_order_increasing_witness :
    (readOrder (gifPersisted 7 2 0 6) = gifPersisted 7 2 0 6 ∧
      (gifPersisted 7 2 0 6).Pairwise (· < ·)) ∧
    (readOrder ((videoWrites 2 3 20 [100, 101, 102, 103, 104]).map Prod.fst) =
        (videoWrites 2 3 20 [100, 101, 102, 103, 104]).map Prod.fst ∧
      ((videoWrites 2 3 20 [100, 101, 102, 103, 104]).map Prod.fst).Pairwise (· < ·)) ∧
    (dirProcessedIdx 5 1 3).Pairwise (· < ·) :=
  ⟨output_order_increasing.1 7 2 0 6 (by norm_num) (by norm_num),
   output_order_increasing.2.1 2 3 20 [100, 101, 102, 103, 104] (by norm_num) (by decide),
   output_order_increasing.2.2 5 1 3⟩

/-! ## Claim C5 -/

theorem processLoop_get (b : Bool) :
    ∀ (l : List Nat) (st k : Nat),
      (processLoop b st l).get? k =
        (l.get? k).map (fun idx => (idx, overlayApplied b (st + k))) := by
  intro l
  induction l with
  | nil => intro st k; rfl
  | cons idx rest ih =>
    intro st k
    cases k with
    | zero => simp [processLoop]
    | succ k =>
      simp only [processLoop, List.get?_cons_succ, ih (st + 1) k]
      have harith : st + 1 + k = st + (k + 1) := by omega
      simp only [harith]

theorem pairwise_lt_le_get :
    ∀ (l : List Nat) (m : Nat), (∀ y ∈ l, m ≤ y) → l.Pairwise (· < ·) →
      ∀ (k x : Nat), l.get? k = some x → m + k ≤ x := by
  intro l
  induction l with
  | nil => intro m _ _ k x h; cases h
  | cons a t ih =>
    intro m hm hp k x hget
    cases k with
    | zero =>
      rw [List.get?_cons_zero] at hget
      cases hget
      have := hm a (List.mem_cons_self a t)
      omega
    | succ k =>
      rw [List.get?_cons_succ] at hget
      have hbound : ∀ y ∈ t, a + 1 ≤ y := by
        intro y hy
        have := List.rel_of_pairwise_cons hp hy
        omega
      have h1 := ih (a + 1) hbound hp.of_cons k x hget
      have h2 := hm a (List.mem_cons_self a t)
      omega

theorem gifPersisted_full_range (n : Nat) : gifPersisted n 1 0 (n : Int) = List.range n := by
  rw [gifPersisted_eq n 1 0 (n : Int) (by omega)]
  apply List.filter_eq_self.mpr
  intro a ha
  have han : a < n := List.mem_range.mp ha
  simp only [keptCond, Bool.and_eq_true, decide_eq_true_eq]
  refine ⟨⟨by positivity, by exact_mod_cast Nat.le_of_lt han⟩, Int.fmod_one a⟩

/-- C5, counterexample: in a gif run with `skip = 2` (kept indices
0,2,4,...,40) the frame with original extraction index 40 sits at position
20 of the processed list, and the overlay IS applied to it even though
40 ≥ 38 — the cutoff tests the enumerate position, not the extraction
index. -/
theorem overlay_cutoff_position_cex :
    (mainProcess (gifPersisted 41 2 0 40) true).get? 20 = some (40, true) ∧
    38 ≤ 40 := by
  exact ⟨by decide, by norm_num⟩

/-- C5, amended: with an overlay image configured, the overlay step is
applied to the k-th frame of the processed (filename-sorted) list iff
k < 38 — the cutoff is the `enumerate` position, not the original
extraction index.  The position never exceeds the extraction index, and
the two coincide (making the claim's index-based reading true) exactly
when the kept indices are the contiguous prefix 0,1,2,..., e.g. a gif run
with `skip = 1` and `start_idx = 0`. -/
theorem overlay_cutoff_by_position :
    (∀ (P : List Nat) (b : Bool) (k idx : Nat) (ap : Bool),
      P.Pairwise (· < ·) → (∀ x ∈ P, x < 10 ^ 8) →
      (mainProcess P b).get? k = some (idx, ap) →
      ap = (b && decide (k < 38)) ∧ k ≤ idx) ∧
    (∀ (n : Nat) (b : Bool) (k idx : Nat) (ap : Bool), n ≤ 10 ^ 8 →
      (mainProcess (gifPersisted n 1 0 (n : Int)) b).get? k = some (idx, ap) →
      idx = k ∧ ap = (b && decide (idx < 38))) := by
  constructor
  · intro P b k idx ap hp hb hget
    unfold mainProcess at hget
    rw [sorted_readOrder P hp hb, processLoop_get b P 0 k] at hget
    cases hPk : P.get? k with
    | none => rw [hPk] at hget; cases hget
    | some y =>
      rw [hPk] at hget
      simp only [Option.map_some'] at hget
      obtain ⟨rfl, hap⟩ := Prod.mk.inj (Option.some.inj hget)
      constructor
      · rw [← hap]
        simp [overlayApplied]
      · have := pairwise_lt_le_get P 0 (fun _ _ => Nat.zero_le _) hp k _ hPk
        omega
  · intro n b k idx ap hn hget
    unfold mainProcess at hget
    rw [gifPersisted_full_range n] at hget
    have hsorted : readOrder (List.range n) = List.range n := by
      apply sorted_readOrder _ (List.pairwise_lt_range n)
      intro x hx
      have := List.mem_range.mp hx
      omega
    rw [hsorted, processLoop_get b (List.range n) 0 k] at hget
    cases hPk : (List.range n).get? k with
    | none => rw [hPk] at hget; cases hget
    | some y =>
      rw [hPk] at hget
      simp only [Option.map_some'] at hget
      obtain ⟨rfl, hap⟩ := Prod.mk.inj (Option.some.inj hget)
      have hyk : y = k := by
        obtain ⟨hlt, hgetv⟩ := List.get?_eq_some.mp hPk
        rw [← hgetv, List.get_range]
      subst hyk
      refine ⟨rfl, ?_⟩
      rw [← hap]
      simp [overlayApplied]

/-- Witness for `overlay_cutoff_by_position` at concrete inputs. -/
theorem overlay_cutoff_by_position_witness :
    (true = (true && decide (1 < 38)) ∧ 1 ≤ 2) ∧
    ((2 : Nat) = 2 ∧ false = (false && decide ((2 : Nat) < 38))) :=
  ⟨overlay_cutoff_by_position.1 [0, 2, 4] true 1 2 true (by decide) (by decide) (by decide),
   overlay_cutoff_by_position.2 5 false 2 2 false (by norm_num) (by decide)⟩

/-! ## Claim C3 -/

/-- C3, counterexample: a directory of 5 images with `start_idx = 1`,
`end_idx = 3` keeps positions `[1, 2]` — the 2nd and 3rd images, i.e. 2
frames, not the claimed 3: the Python slice
`images_list_path[start_idx : end_idx]` excludes the end index. -/
theorem dir_range_end_exclusive_cex :
    dirProcessedIdx 5 1 3 = [1, 2] ∧
    (dirProcessedIdx 5 1 3).length = 2 ∧
    dirProcessedIdx 5 1 3 ≠ [1, 2, 3] := ⟨by decide, by decide, by decide⟩

/-- C3, amended: for a directory source the range filter is the Python
slice, whose end is EXCLUSIVE: 5 images with `start_idx = 1`,
`end_idx = 3` yield exactly 2 frames (the 2nd and 3rd images in sorted
order), and in general `end_idx - start_idx` frames when
`start_idx ≤ end_idx ≤ n`.  Only container extraction treats the end
index inclusively (a 5-frame gif with the same range keeps `[1, 2, 3]`). -/
theorem dir_range_slice :
    dirProcessedIdx 5 1 3 = [1, 2] ∧
    (∀ (n s e : Nat), s ≤ e → e ≤ n →
      (dirProcessedIdx n (s : Int) (e : Int)).length = e - s) ∧
    gifPersisted 5 1 1 3 = [1, 2, 3] := by
  refine ⟨by decide, ?_, by decide⟩
  intro n s e hse hen
  simp only [dirProcessedIdx, pySlice, List.length_range, List.length_take,
    List.length_drop]
  split_ifs <;> omega

/-- Witness for `dir_range_slice` at concrete inputs. -/
theorem dir_range_slice_witness :
    (dirProcessedIdx 7 ((2 : Nat) : Int) ((6 : Nat) : Int)).length = 6 - 2 :=
  dir_range_slice.2.1 7 2 6 (by norm_num) (by norm_num)

/-! ## Claim C6 -/

theorem rotate45_canvas : rotateCanvas 100 100 45 = (141, 141) := by
  have hrad : (45 : ℝ) * Real.pi / 180 = Real.pi / 4 := by ring
  have hs : Real.sin ((45 : ℝ) * Real.pi / 180) = Real.sqrt 2 / 2 := by
    rw [hrad, Real.sin_pi_div_four]
  have hc : Real.cos ((45 : ℝ) * Real.pi / 180) = Real.sqrt 2 / 2 := by
    rw [hrad, Real.cos_pi_div_four]
  have hnn : (0 : ℝ) ≤ Real.sqrt 2 := Real.sqrt_nonneg 2
  have hsq : Real.sqrt 2 ^ 2 = 2 := Real.sq_sqrt (by norm_num)
  have habs : |Real.sqrt 2 / 2| = Real.sqrt 2 / 2 := abs_of_nonneg (by positivity)
  have hsum : ((100 : Nat) : ℝ) * (Real.sqrt 2 / 2) + ((100 : Nat) : ℝ) * (Real.sqrt 2 / 2)
      = 100 * Real.sqrt 2 := by push_cast; ring
  have hlb : (141 : ℝ) ≤ 100 * Real.sqrt 2 := by nlinarith
  have hub : (100 : ℝ) * Real.sqrt 2 < 142 := by nlinarith
  have hfl : ⌊(100 : ℝ) * Real.sqrt 2⌋ = (141 : ℤ) := by
    rw [Int.floor_eq_iff]
    constructor
    · exact_mod_cast hlb
    · push_cast
      linarith
  simp only [rotateCanvas]
  rw [hs, hc, habs, hsum, hfl]

/-- C6, counterexample: rotating a 100x100 frame by 45 degrees yields a
141x141 canvas, not the claimed ceiling 142x142: `int()` truncates
`100*sqrt 2 = 141.42...` downward. -/
theorem rotate_45_canvas_cex : rotateCanvas 100 100 45 ≠ (142, 142) := by
  rw [rotate45_canvas]
  decide

/-- C6, amended: the canvas sides are the FLOOR (Python `int()` truncation)
of `h*|sin θ| + w*|cos θ|` and `h*|cos θ| + w*|sin θ|`; in particular a
100x100 frame rotated by 45 degrees gets a 141x141 canvas
(`⌊100*sqrt 2⌋ = 141`). -/
theorem rotate_45_canvas_floor :
    rotateCanvas 100 100 45 = (141, 141) ∧
    (∀ (h w : Nat) (a : ℝ),
      (((rotateCanvas h w a).1 : ℝ) ≤
          (h : ℝ) * |Real.sin (a * Real.pi / 180)| +
            (w : ℝ) * |Real.cos (a * Real.pi / 180)| ∧
        (h : ℝ) * |Real.sin (a * Real.pi / 180)| +
            (w : ℝ) * |Real.cos (a * Real.pi / 180)| <
          ((rotateCanvas h w a).1 : ℝ) + 1)) := by
  refine ⟨rotate45_canvas, ?_⟩
  intro h w a
  simp only [rotateCanvas]
  exact ⟨Int.floor_le _, Int.lt_floor_add_one _⟩

/-! ## Claim C7 -/

theorem arraySplit_length {α : Type} :
    ∀ (N : Nat) (l : List α), (arraySplit l N).length = N := by
  intro N
  induction N with
  | zero => intro l; rfl
  | succ N ih =>
    intro l
    simp only [arraySplit, List.length_cons, ih]

theorem arraySplit_flatten {α : Type} :
    ∀ (N : Nat) (l : List α), 1 ≤ N → (arraySplit l N).flatten = l := by
  intro N
  induction N with
  | zero => omega
  | succ N ih =>
    intro l _
    cases N with
    | zero =>
      have hs : l.length / 1 + (if l.length % 1 = 0 then 0 else 1) = l.length := by
        simp [Nat.div_one, Nat.mod_one]
      rw [arraySplit, hs, List.flatten_cons]
      rw [show arraySplit (l.drop l.length) 0 = [] from rfl]
      simp [List.take_length]
    | succ M =>
      rw [arraySplit, List.flatten_cons, ih _ (by omega)]
      exact List.take_append_drop _ l

theorem arraySplit_chunk_len {α : Type} :
    ∀ (N : Nat) (l : List α) (c : List α), c ∈ arraySplit l N →
      c.length = l.length / N ∨ c.length = l.length / N + 1 := by
  intro N
  induction N with
  | zero => intro l c hc; cases hc
  | succ N ih =>
    intro l c hc
    have hdm := Nat.div_add_mod l.length (N + 1)
    have hexp : (N + 1) * (l.length / (N + 1)) =
        N * (l.length / (N + 1)) + l.length / (N + 1) := by ring
    have hql : l.length / (N + 1) ≤ (N + 1) * (l.length / (N + 1)) :=
      Nat.le_mul_of_pos_left _ (by omega)
    have hm : l.length % (N + 1) < N + 1 := Nat.mod_lt _ (by omega)
    rcases List.mem_cons.mp hc with rfl | htail
    · rw [List.length_take]
      by_cases hz : l.length % (N + 1) = 0
      · rw [if_pos hz]
        left
        simp only [add_zero]
        exact min_eq_left (by omega)
      · rw [if_neg hz]
        right
        exact min_eq_left (by omega)
    · by_cases hN : N = 0
      · subst hN
        cases htail
      · have hlen := ih (l.drop (l.length / (N + 1) +
          (if l.length % (N + 1) = 0 then 0 else 1))) c htail
        rw [List.length_drop] at hlen
        have hkey : (l.length - (l.length / (N + 1) +
            (if l.length % (N + 1) = 0 then 0 else 1))) / N = l.length / (N + 1) := by
          by_cases hz : l.length % (N + 1) = 0
          · rw [if_pos hz]
            have h1 : l.length - (l.length / (N + 1) + 0) =
                N * (l.length / (N + 1)) := by omega
            rw [h1, Nat.mul_div_cancel_left _ (by omega : 0 < N)]
          · rw [if_neg hz]
            have h1 : l.length - (l.length / (N + 1) + 1) =
                N * (l.length / (N + 1)) + (l.length % (N + 1) - 1) := by omega
            rw [h1, Nat.mul_add_div (by omega : 0 < N),
              Nat.div_eq_of_lt (by omega : l.length % (N + 1) - 1 < N), add_zero]
        rw [hkey] at hlen
        exact hlen

/-- C7: `np.array_split(imgs, nb_gif)` partitions the frame list into
exactly N contiguous chunks whose concatenation is the original list (so
the chunk sizes sum to the kept-frame count and no frame is shared between
chunks), and any two chunk sizes differ by at most one. -/
theorem partition_near_equal (l : List Nat) (N : Nat) (hN : 1 ≤ N) :
    (arraySplit l N).length = N ∧
    (arraySplit l N).flatten = l ∧
    ((arraySplit l N).map List.length).sum = l.length ∧
    (∀ c1 ∈ arraySplit l N, ∀ c2 ∈ arraySplit l N, c1.length ≤ c2.length + 1) := by
  refine ⟨arraySplit_length N l, arraySplit_flatten N l hN, ?_, ?_⟩
  · rw [← List.length_flatten, arraySplit_flatten N l hN]
  · intro c1 h1 c2 h2
    rcases arraySplit_chunk_len N l c1 h1 with ha | ha <;>
      rcases arraySplit_chunk_len N l c2 h2 with hb | hb <;> omega

/-- Witness for `partition_near_equal` at a concrete input. -/
theorem partition_near_equal_witness :
    (arraySplit [0, 1, 2, 3, 4] 2).length = 2 ∧
    (arraySplit [0, 1, 2, 3, 4] 2).flatten = [0, 1, 2, 3, 4] ∧
    ((arraySplit [0, 1, 2, 3, 4] 2).map List.length).sum = [0, 1, 2, 3, 4].length ∧
    (∀ c1 ∈ arraySplit [0, 1, 2, 3, 4] 2, ∀ c2 ∈ arraySplit [0, 1, 2, 3, 4] 2,
      c1.length ≤ c2.length + 1) :=
  partition_near_equal [0, 1, 2, 3, 4] 2 (by norm_num)

/-! ## Claim C8 -/

/-- C8: the cleanup of frame_manager/frame_manager.py removes exactly the
`tmp_images/` cache, precisely when a cache was created (container input)
and keeping was not requested — as the claim states.  But the older
gif_maker/frame_manager.py variant, also cited by the claim, omits the
`isfile` guard: for a DIRECTORY source without `-k` its cleanup deletes
every file of the input directory itself and removes the directory. -/
theorem cleanup_directory_source_bug :
    (∀ (isFile keep : Bool),
      fm_removedDir isFile keep =
        if fm_cacheCreated isFile && !keep then some RunDir.tmpImages else none) ∧
    gm_removedDir false false = some RunDir.input := by
  constructor
  · intro isFile keep
    cases isFile <;> cases keep <;> rfl
  · rfl

end Utils
